import Mathlib

/-!
Shallow embedding of the `simplequantnetsim` package (files `sim.py`,
`graph.py`, `protocols.py`) and verification of its specification claims.

Modelling conventions:
* Python numbers (ints and floats used for `age`, `Qc`, `p_edge`, `length`,
  counters and rates) are embedded as exact rationals `ℚ`; node identifiers
  are `ℕ`.
* networkx graphs are embedded as lists (preserving insertion/iteration
  order) of nodes with attribute records and of undirected edges with
  attribute records.  Edge lookup matches either orientation, as in
  networkx.
* Python code that can raise an exception (KeyError on a missing attribute
  or node, NameError on an unbound loop variable, NetworkXNoPath /
  NodeNotFound, ZeroDivisionError, a negative array dimension) is embedded
  with `Option` / `Except`: `none` / `.error` means the Python call raises.
-/

namespace QuantNetSim

/-- Edge attribute record (see `graph.py`: `length`, `p_edge`, `Qc`,
`entangled`, `age`). -/
structure EdgeAttr where
  entangled : Bool
  age : ℚ
  Qc : ℚ
  p_edge : ℚ
  length : ℚ
  deriving DecidableEq

/-- Node attribute record (see `graph.py`: `entangled`, `age`, `Qc`,
`usage_count`, `usage_fraction`). -/
structure NodeAttr where
  entangled : Bool
  age : ℚ
  Qc : ℚ
  usage_count : ℚ
  usage_fraction : ℚ
  deriving DecidableEq

/-- A networkx topology graph: nodes with attributes and undirected edges
with attributes, both in insertion order. -/
structure Graph where
  nodes : List (ℕ × NodeAttr)
  edges : List (ℕ × ℕ × EdgeAttr)
  deriving DecidableEq

/-- A derived graph whose nodes carry no attributes (as produced by
`get_entangled_subgraph`, whose `add_nodes_from(G)` copies only the node
names). -/
structure SubGraph where
  nodes : List ℕ
  edges : List (ℕ × ℕ × EdgeAttr)
  deriving DecidableEq

/-- One entry of the `used_nodes` list (a Python dict).  The shortest-path
routines create entries with all four keys; `_CC_protocol` creates entries
without `age` and `destination_node`, hence those fields are `Option`
(reading a missing key raises KeyError, i.e. yields `none`). -/
structure UsedPath where
  nodes : List ℕ
  edge_count : ℚ
  age : Option ℚ
  destination_node : Option ℕ
  deriving DecidableEq

/-- Unordered-pair test for undirected edges. -/
def pairMatch (u v a b : ℕ) : Bool :=
  (a == u && b == v) || (a == v && b == u)

def Graph.nodeNames (G : Graph) : List ℕ := G.nodes.map Prod.fst

/-- `G.nodes[n]`; `none` models a KeyError. -/
def lookupNode (G : Graph) (n : ℕ) : Option NodeAttr :=
  (G.nodes.find? (fun p => p.1 == n)).map Prod.snd

def updateNode (G : Graph) (n : ℕ) (f : NodeAttr → NodeAttr) : Graph :=
  ⟨G.nodes.map (fun p => if p.1 == n then (p.1, f p.2) else p), G.edges⟩

/-- `G.edges[u, v]` on an edge list; `none` models a KeyError. -/
def lookupEdge (es : List (ℕ × ℕ × EdgeAttr)) (u v : ℕ) : Option EdgeAttr :=
  (es.find? (fun t => pairMatch u v t.1 t.2.1)).map (fun t => t.2.2)

def updateEdge (es : List (ℕ × ℕ × EdgeAttr)) (u v : ℕ) (f : EdgeAttr → EdgeAttr) :
    List (ℕ × ℕ × EdgeAttr) :=
  es.map (fun t => if pairMatch u v t.1 t.2.1 then (t.1, t.2.1, f t.2.2) else t)

def removeEdge (es : List (ℕ × ℕ × EdgeAttr)) (u v : ℕ) : List (ℕ × ℕ × EdgeAttr) :=
  es.filter (fun t => !pairMatch u v t.1 t.2.1)

def hasEdge (es : List (ℕ × ℕ × EdgeAttr)) (u v : ℕ) : Bool :=
  es.any (fun t => pairMatch u v t.1 t.2.1)

def SubGraph.edgePairs (H : SubGraph) : List (ℕ × ℕ) :=
  H.edges.map (fun t => (t.1, t.2.1))

/-! ## graph.py -/

/-- `reset_graph_state`: set `entangled := False` and `age := 0` on every
edge and node. -/
def reset_graph_state (G : Graph) : Graph :=
  ⟨G.nodes.map (fun p => (p.1, { p.2 with entangled := false, age := 0 })),
   G.edges.map (fun t => (t.1, t.2.1, { t.2.2 with entangled := false, age := 0 }))⟩

/-- `reset_graph_usage`: set `usage_count := 0` and `usage_fraction := 0`
on every node. -/
def reset_graph_usage (G : Graph) : Graph :=
  ⟨G.nodes.map (fun p => (p.1, { p.2 with usage_count := 0, usage_fraction := 0 })),
   G.edges⟩

/-- `update_graph_usage`: recompute `usage_fraction = usage_count / reps`
for every node. -/
def update_graph_usage (G : Graph) (reps : ℚ) : Graph :=
  ⟨G.nodes.map (fun p => (p.1, { p.2 with usage_fraction := p.2.usage_count / reps })),
   G.edges⟩

/-- `get_entangled_subgraph`: a fresh graph with the node names of `G`
(`add_nodes_from(G)` copies no node attributes) and exactly the edges of
`G` whose `entangled` attribute is true (with top-level copies of their
attribute dicts). -/
def get_entangled_subgraph (G : Graph) : SubGraph :=
  ⟨G.nodeNames, G.edges.filter (fun t => t.2.2.entangled)⟩

/-! ## sim.py: run_entanglement_step -/

/-- Decoherence phase of the edge loop: if the edge is entangled its age is
incremented, and if the new age reaches `Qc` the link is discarded. -/
def edgeDecohere (e : EdgeAttr) : EdgeAttr :=
  if e.entangled then
    let e1 := { e with age := e.age + 1 }
    if e1.Qc ≤ e1.age then { e1 with entangled := false, age := 0 } else e1
  else e

/-- Generation phase of the edge loop, applied to the state after
`edgeDecohere`: if not entangled and `p_edge > r`, a fresh link appears. -/
def edgeGenerate (e : EdgeAttr) (r : ℚ) : EdgeAttr :=
  if !e.entangled && decide (e.p_edge > r) then
    { e with entangled := true, age := 0 }
  else e

/-- One iteration of the edge loop of `run_entanglement_step` with drawn
random value `r`. -/
def stepEdge (e : EdgeAttr) (r : ℚ) : EdgeAttr :=
  edgeGenerate (edgeDecohere e) r

/-- The edge loop, pairing edge `i` with the random draw `rs (k + i)` of
the global random stream (`zip(G.edges().values(), r_list)`). -/
def stepEdges (rs : ℕ → ℚ) : ℕ → List (ℕ × ℕ × EdgeAttr) → List (ℕ × ℕ × EdgeAttr)
  | _, [] => []
  | k, t :: ts => (t.1, t.2.1, stepEdge t.2.2 (rs k)) :: stepEdges rs (k + 1) ts

/-- One iteration of the node loop: age an entangled node; if the (possibly
incremented) age reaches `Qc`, set `entangled := False`.  The second
component records whether the decoherence branch fired, because that branch
also executes `edge["age"] = 0` on the stale edge-loop variable (the last
iterated edge) instead of resetting the node's own age. -/
def stepNode (a : NodeAttr) : NodeAttr × Bool :=
  let a1 := if a.entangled then { a with age := a.age + 1 } else a
  if a1.Qc ≤ a1.age then ({ a1 with entangled := false }, true) else (a1, false)

def stepNodes : List (ℕ × NodeAttr) → List (ℕ × NodeAttr) × Bool
  | [] => ([], false)
  | p :: ps =>
    let r := stepNode p.2
    let rest := stepNodes ps
    ((p.1, r.1) :: rest.1, r.2 || rest.2)

/-- The effect of the `edge["age"] = 0` writes performed by the node loop's
decoherence branch: the loop variable `edge` still refers to the last edge
iterated by the edge loop, so the last edge's age is set to 0.  Every such
write stores the constant 0 and nothing reads edge ages during the node
loop, so the writes collapse to a single write to the last edge. -/
def clobberLastEdgeAge : List (ℕ × ℕ × EdgeAttr) → List (ℕ × ℕ × EdgeAttr)
  | [] => []
  | [t] => [(t.1, t.2.1, { t.2.2 with age := 0 })]
  | t :: ts => t :: clobberLastEdgeAge ts

/-- `path["age"] += 1`; `none` models the KeyError raised when the dict has
no `age` key. -/
def ageUsedPath (p : UsedPath) : Option UsedPath :=
  p.age.map (fun a => { p with age := some (a + 1) })

/-- The retention test `path["age"] < G.nodes[path["destination_node"]]["Qc"]`;
`none` models a KeyError (missing dict key or missing node). -/
def keepUsedPath (G : Graph) (p : UsedPath) : Option Bool := do
  let d ← p.destination_node
  let a ← lookupNode G d
  let pa ← p.age
  pure (decide (pa < a.Qc))

def optionFilter (f : α → Option Bool) : List α → Option (List α)
  | [] => some []
  | x :: xs => do
    let b ← f x
    let rest ← optionFilter f xs
    pure (if b then x :: rest else rest)

/-- `run_entanglement_step(G, used_nodes, nodes)` from `sim.py`, drawing
its random values from positions `k, k+1, …` of the stream `rs`.
`none` models an uncaught Python exception: the NameError raised by
`edge["age"] = 0` when the graph has no edges (the loop variable `edge` was
never bound), or a KeyError while ageing/filtering `used_nodes`. -/
def run_entanglement_step (G : Graph) (used : List UsedPath) (rs : ℕ → ℚ)
    (k : ℕ) (nodes : Bool) : Option (Graph × List UsedPath) :=
  let es := stepEdges rs k G.edges
  if nodes then
    let sn := stepNodes G.nodes
    if sn.2 && decide (es = []) then none
    else
      let es2 := if sn.2 then clobberLastEdgeAge es else es
      let G1 : Graph := ⟨sn.1, es2⟩
      do
        let used1 ← used.mapM ageUsedPath
        let used2 ← optionFilter (keepUsedPath G1) used1
        pure (G1, used2)
  else some (⟨G.nodes, es⟩, used)

/-! ## Path and connectivity queries (networkx library semantics)

`_SD_protocol` and `_get_star` call `nx.shortest_path` without a `weight`
argument, which returns a source-to-destination path with the minimum
number of edges (breadth-first search).  We model it as the first
hop-count-minimal element of an exhaustive enumeration of the simple
paths; the tie-breaking order among equally short paths is a model choice,
as networkx's own tie-breaking depends on adjacency iteration order. -/

/-- The neighbours of `u` read off an undirected edge-pair list. -/
def nbrs (E : List (ℕ × ℕ)) (u : ℕ) : List ℕ :=
  E.filterMap (fun p => if p.1 == u then some p.2 else if p.2 == u then some p.1 else none)

/-- `x` and `y` are joined by an edge of `E` (either orientation). -/
def edgeRel (E : List (ℕ × ℕ)) (x y : ℕ) : Prop :=
  (x, y) ∈ E ∨ (y, x) ∈ E

instance (E : List (ℕ × ℕ)) (x y : ℕ) : Decidable (edgeRel E x y) :=
  inferInstanceAs (Decidable (_ ∨ _))

/-- Depth-first enumeration of the simple paths from `cur` to `d` that
avoid `vis`; `fuel` bounds the number of further hops. -/
def spAux (E : List (ℕ × ℕ)) (d : ℕ) : ℕ → ℕ → List ℕ → List (List ℕ)
  | 0, cur, _ => if cur = d then [[d]] else []
  | fuel + 1, cur, vis =>
    if cur = d then [[d]]
    else
      ((nbrs E cur).filter (fun x => !vis.contains x)).flatMap
        (fun x => (spAux E d fuel x (x :: vis)).map (fun q => cur :: q))

/-- All simple paths from `s` to `d` over the edge list `E`.  The fuel
`2 * E.length + 1` dominates the number of distinct nodes touching an
edge, hence the length of any simple path. -/
def simplePaths (E : List (ℕ × ℕ)) (s d : ℕ) : List (List ℕ) :=
  spAux E d (2 * E.length + 1) s [s]

/-- `q` is a simple path from `s` to `d`: correct endpoints, consecutive
nodes joined by an edge, no repeated node. -/
def IsSimplePath (E : List (ℕ × ℕ)) (s d : ℕ) (q : List ℕ) : Prop :=
  q.head? = some s ∧ q.getLast? = some d ∧ q.Chain' (edgeRel E) ∧ q.Nodup

/-- `nx.shortest_path(H, s, d)` with no weight argument: a hop-count
minimal simple path.  `none` models the NodeNotFound / NetworkXNoPath
exception (missing endpoint or no path). -/
def shortest_path (H : SubGraph) (s d : ℕ) : Option (List ℕ) :=
  if s ∈ H.nodes ∧ d ∈ H.nodes then
    (simplePaths H.edgePairs s d).argmin List.length
  else none

/-- `nx.has_path(H, s, d)`: `none` models the NodeNotFound exception. -/
def hasPath (H : SubGraph) (s d : ℕ) : Option Bool :=
  if s ∈ H.nodes ∧ d ∈ H.nodes then
    some (decide (simplePaths H.edgePairs s d ≠ []))
  else none

/-- Total weight of a path under the edge `length` attribute (the quantity
the specification's `weight=length` contract would minimise). -/
def pathLength (es : List (ℕ × ℕ × EdgeAttr)) : List ℕ → ℚ
  | u :: v :: q => (match lookupEdge es u v with
      | some a => a.length
      | none => 0) + pathLength es (v :: q)
  | _ => 0

/-- Weighted (`weight="length"`) shortest path, used by the Steiner-tree
approximation's metric closure. -/
def weightedShortestPath (H : SubGraph) (s d : ℕ) : Option (List ℕ) :=
  (simplePaths H.edgePairs s d).argmin (pathLength H.edges)

/-- `nx.node_connected_component(H, u)`: the nodes reachable from `u`,
by breadth-first traversal. -/
def ccAux (E : List (ℕ × ℕ)) : ℕ → List ℕ → List ℕ → List ℕ
  | 0, _, seen => seen
  | fuel + 1, frontier, seen =>
    let new := (frontier.flatMap (nbrs E)).filter (fun x => !seen.contains x)
    match new with
    | [] => seen
    | _ => ccAux E fuel new.dedup (seen ++ new.dedup)

def connComp (H : SubGraph) (u : ℕ) : List ℕ :=
  ccAux H.edgePairs (H.nodes.length + H.edges.length + 1) [u] [u]

/-- `H.subgraph(CC)`: the subgraph induced by the node set `CC`. -/
def inducedSub (H : SubGraph) (CC : List ℕ) : SubGraph :=
  ⟨H.nodes.filter (fun n => CC.contains n),
   H.edges.filter (fun t => CC.contains t.1 && CC.contains t.2.1)⟩

/-- Degree of `n` in an edge list (no self loops arise in this model). -/
def degreeIn (es : List (ℕ × ℕ × EdgeAttr)) (n : ℕ) : ℕ :=
  es.countP (fun t => t.1 == n || t.2.1 == n)

/-! ## Steiner tree approximation (networkx
`steiner_tree(G, terminals, weight="length")` library semantics): build the
metric closure over the terminals, take a minimum spanning tree of it
(Kruskal), and return the union of the corresponding weighted shortest
paths as an edge subgraph (its node set is the set of endpoints of its
edges). -/

/-- All unordered terminal pairs `(t_i, t_j)`, `i < j`, after removing
duplicates. -/
def terminalPairs (ts : List ℕ) : List (ℕ × ℕ) :=
  let l := ts.dedup
  (l.enum.flatMap (fun p => (l.drop (p.1 + 1)).map (fun y => (p.2, y))))

/-- Metric-closure entries: for each terminal pair a weighted shortest
path and its total length (unreachable pairs contribute nothing; the
callers in `protocols.py` only pass terminals inside one connected
component). -/
def closureEntries (H : SubGraph) (ts : List ℕ) : List (ℚ × ℕ × ℕ × List ℕ) :=
  (terminalPairs ts).filterMap (fun p =>
    (weightedShortestPath H p.1 p.2).map (fun q => (pathLength H.edges q, p.1, p.2, q)))

def findComp (comps : List (List ℕ)) (x : ℕ) : ℕ :=
  (comps.findIdx (fun c => c.contains x))

/-- Kruskal selection over the metric closure: scan entries in order of
increasing weight, keeping an entry when its endpoints lie in different
components. -/
def kruskal : List (ℚ × ℕ × ℕ × List ℕ) → List (List ℕ) → List (List ℕ)
  | [], _ => []
  | e :: es, comps =>
    let i := findComp comps e.2.1
    let j := findComp comps e.2.2.1
    if i ≠ j then
      let merged := (comps.get? i).getD [] ++ (comps.get? j).getD []
      let rest := (comps.enum.filter (fun c => c.1 ≠ i ∧ c.1 ≠ j)).map Prod.snd
      e.2.2.2 :: kruskal es (merged :: rest)
    else kruskal es comps

def consecPairs : List ℕ → List (ℕ × ℕ)
  | u :: v :: q => (u, v) :: consecPairs (v :: q)
  | _ => []

def dedupPairs : List (ℕ × ℕ) → List (ℕ × ℕ)
  | [] => []
  | p :: ps =>
    let rest := dedupPairs ps
    if rest.any (fun q => pairMatch p.1 p.2 q.1 q.2) then rest else p :: rest

/-- The Steiner tree approximation itself. -/
def steinerTree (H : SubGraph) (ts : List ℕ) : SubGraph :=
  let sorted := (closureEntries H ts).mergeSort (fun a b => decide (a.1 ≤ b.1))
  let paths := kruskal sorted ((ts.dedup).map (fun t => [t]))
  let prs := dedupPairs (paths.flatMap consecPairs)
  let es := prs.filterMap (fun p => (lookupEdge H.edges p.1 p.2).map (fun a => (p.1, p.2, a)))
  ⟨(prs.flatMap (fun p => [p.1, p.2])).dedup, es⟩

/-! ## protocols.py -/

/-- `_count_node(K, node, users, count_fusion)`: a node is recorded as used
when it performs entanglement swapping (degree 2, unless it is a user and
`count_fusion` is false) or fusion (degree above 2, only when
`count_fusion` is true). -/
def _count_node (K : SubGraph) (node : ℕ) (users : List ℕ) (count_fusion : Bool) : Bool :=
  let deg := degreeIn K.edges node
  if deg = 2 then
    (if !users.contains node || count_fusion then true else false)
  else if deg > 2 && count_fusion then true
  else false

/-- `_CC_protocol(G, H, users, used_nodes, count_fusion)`.  `none` models
the IndexError on empty `users` or the NodeNotFound exception of
`node_connected_component` when `users[0]` is not a node of `H`. -/
def _CC_protocol (G : Graph) (H : SubGraph) (users : List ℕ)
    (used : List UsedPath) (count_fusion : Bool) :
    Option (Bool × Graph × SubGraph × List UsedPath) :=
  match users with
  | [] => none
  | u0 :: _ =>
    if u0 ∈ H.nodes then
      let CC := connComp H u0
      if users.all (fun u => CC.contains u) then
        let K := steinerTree (inducedSub H CC) users
        let entry : UsedPath :=
          ⟨K.nodes.filter (fun n => _count_node K n users count_fusion),
           (K.edges.length : ℚ), none, none⟩
        some (true, G, H, used ++ [entry])
      else some (false, G, H, used)
    else none

/-- The edge-consuming loop of `_create_bell_pair`: for each consecutive
pair of the path, remove the edge from `H` and set it `entangled = False`,
`age = 0` in `G`.  `none` models the KeyError when a pair is not an edge of
`H` or of `G`. -/
def consumePathEdges : List (ℕ × ℕ) → Graph → SubGraph → Option (Graph × SubGraph)
  | [], G, H => some (G, H)
  | p :: ps, G, H =>
    if hasEdge H.edges p.1 p.2 then
      let H1 : SubGraph := ⟨H.nodes, removeEdge H.edges p.1 p.2⟩
      if hasEdge G.edges p.1 p.2 then
        let G1 : Graph :=
          ⟨G.nodes, updateEdge G.edges p.1 p.2 (fun a => { a with entangled := false, age := 0 })⟩
        consumePathEdges ps G1 H1
      else none
    else none

/-- `_create_bell_pair(G, H, path, used_nodes)`: consume the path's edges,
mark the destination node `entangled = True, age = 0`, and append a
used-path record `{nodes: path[1:-1], age: 0, destination_node: path[-1],
edge_count: len(path) - 1}`. -/
def _create_bell_pair (G : Graph) (H : SubGraph) (path : List ℕ)
    (used : List UsedPath) : Option (Graph × SubGraph × List UsedPath) := do
  let gh ← consumePathEdges (consecPairs path) G H
  let dest ← path.getLast?
  let _ ← lookupNode gh.1 dest
  let G2 := updateNode gh.1 dest (fun a => { a with entangled := true, age := 0 })
  let entry : UsedPath :=
    ⟨(path.drop 1).dropLast, (path.length : ℚ) - 1, some 0, some dest⟩
  pure (G2, gh.2, used ++ [entry])

/-- The body of `_SD_protocol`'s loop over the destination nodes.  The
Python conjunction `not G.nodes[d]["entangled"] and nx.has_path(H, s, d)`
short-circuits, so `has_path` (which raises on missing endpoints) is only
evaluated when the destination is not yet entangled. -/
def sdVisit (s : ℕ) (st : Graph × SubGraph × List UsedPath) (d : ℕ) :
    Option (Graph × SubGraph × List UsedPath) := do
  let a ← lookupNode st.1 d
  if !a.entangled then do
    let hp ← hasPath st.2.1 s d
    if hp then do
      let path ← shortest_path st.2.1 s d
      _create_bell_pair st.1 st.2.1 path st.2.2
    else pure st
  else pure st

/-- `_SD_protocol(G, H, users, used_nodes, count_fusion)`: route a shortest
path to every not-yet-entangled destination, succeed when all destinations
are entangled.  `none` models IndexError (empty `users`) or KeyError /
NodeNotFound from the loop body. -/
def _SD_protocol (G : Graph) (H : SubGraph) (users : List ℕ)
    (used : List UsedPath) (count_fusion : Bool) :
    Option (Bool × Graph × SubGraph × List UsedPath) :=
  match users with
  | [] => none
  | s :: dests => do
    let st ← dests.foldlM (sdVisit s) (G, H, used)
    let flags ← dests.mapM (fun d => (lookupNode st.1 d).map (fun a => a.entangled))
    pure (flags.all id, st.1, st.2.1, st.2.2)

/-- Errors surfaced by the protocol runner: `pythonError` stands for any
uncaught Python exception other than the aggregator's ZeroDivisionError. -/
inductive RunError where
  | pythonError
  | divByZero
  deriving DecidableEq

/-- `_multipartite_rate(gen_times, max_timesteps)`: the entanglement rate
`success_count / (Σ success_times + fail_count * max_timesteps)`, failing
with a zero-division error when the denominator is zero. -/
def _multipartite_rate (gen_times : List ℚ) (max_timesteps : ℚ) : Except RunError ℚ :=
  let successful_attempts := gen_times.filter (fun t => decide (t ≠ -1))
  let fail_count : ℚ := ((gen_times.length - successful_attempts.length : ℕ) : ℚ)
  let t_total := successful_attempts.sum + fail_count * max_timesteps
  if t_total = 0 then .error .divByZero
  else .ok ((successful_attempts.length : ℚ) / t_total)

/-- One iteration of `_run_protocol`'s per-trial `while` loop, with `fuel`
many timesteps remaining, loop counter `t`, and random-stream position `k`.
On success the (incremented) counter is returned as the trial's generation
time; exhausting the fuel returns `none` as the time (the `-1` sentinel). -/
def trialLoop (users : List ℕ)
    (proto : Graph → SubGraph → List ℕ → List UsedPath → Bool →
      Option (Bool × Graph × SubGraph × List UsedPath))
    (nodesFlag count_fusion : Bool) (rs : ℕ → ℚ) :
    ℕ → Graph → List UsedPath → ℚ → ℕ → Option (Graph × List UsedPath × Option ℚ × ℕ)
  | 0, G, used, _, k => some (G, used, none, k)
  | fuel + 1, G, used, t, k =>
    match run_entanglement_step G used rs k nodesFlag with
    | none => none
    | some (G1, used1) =>
      let k1 := k + G.edges.length
      let H := get_entangled_subgraph G1
      match proto G1 H users used1 count_fusion with
      | none => none
      | some (succ, G2, _, used2) =>
        if succ then some (G2, used2, some (t + 1), k1)
        else trialLoop users proto nodesFlag count_fusion rs fuel G2 used2 (t + 1) k1

/-- `G.nodes[n]["usage_count"] += 1`; `none` models the KeyError on a
missing node. -/
def incUsage (G : Graph) (n : ℕ) : Option Graph :=
  if n ∈ G.nodeNames then
    some (updateNode G n (fun a => { a with usage_count := a.usage_count + 1 }))
  else none

/-- The bookkeeping executed on a successful trial: for every entry of
`used_nodes`, `links_used += edge_count` and every listed node's
`usage_count` is incremented. -/
def applySuccess (used : List UsedPath) (G : Graph) (links : ℚ) : Option (Graph × ℚ) :=
  used.foldlM
    (fun st p => (p.nodes.foldlM incUsage st.1).map (fun G1 => (G1, st.2 + p.edge_count)))
    (G, links)

/-- The `for i in range(reps)` loop of `_run_protocol`, threading the
graph, the list of per-trial generation times, the accumulated
`links_used`, and the random-stream position. -/
def runTrials (users : List ℕ)
    (proto : Graph → SubGraph → List ℕ → List UsedPath → Bool →
      Option (Bool × Graph × SubGraph × List UsedPath))
    (nodesFlag count_fusion : Bool) (rs : ℕ → ℚ) (timesteps : ℤ) :
    ℕ → Graph → ℕ → List ℚ → ℚ → Option (Graph × List ℚ × ℚ × ℕ)
  | 0, G, k, gen, links => some (G, gen, links, k)
  | i + 1, G, k, gen, links =>
    let G1 := reset_graph_state G
    match trialLoop users proto nodesFlag count_fusion rs timesteps.toNat G1 [] 0 k with
    | none => none
    | some (G2, used, timeOpt, k1) =>
      match timeOpt with
      | none => runTrials users proto nodesFlag count_fusion rs timesteps i G2 k1 (gen ++ [-1]) links
      | some t =>
        match applySuccess used G2 links with
        | none => none
        | some (G3, links1) =>
          runTrials users proto nodesFlag count_fusion rs timesteps i G3 k1 (gen ++ [t]) links1

/-- `_run_protocol(G, users, timesteps, reps, success_protocol, nodes,
count_fusion)`, drawing randomness from the stream `rs` (position 0).
A negative `reps` makes `np.ones((reps))` raise, modelled as
`pythonError`; the aggregator's zero denominator is `divByZero`.  The
returned tuple is `(rate, multipartite_gen_time, avg_links_used)` together
with the final state of the mutated graph. -/
def _run_protocol (G : Graph) (users : List ℕ) (timesteps reps : ℤ)
    (proto : Graph → SubGraph → List ℕ → List UsedPath → Bool →
      Option (Bool × Graph × SubGraph × List UsedPath))
    (nodesFlag count_fusion : Bool) (rs : ℕ → ℚ) :
    Except RunError (Graph × ℚ × List ℚ × ℚ) :=
  if reps < 0 then .error .pythonError
  else
    let G0 := reset_graph_usage G
    match runTrials users proto nodesFlag count_fusion rs timesteps reps.toNat G0 0 [] 0 with
    | none => .error .pythonError
    | some (G1, gen, links, _) =>
      match _multipartite_rate gen (timesteps : ℚ) with
      | .error e => .error e
      | .ok rate =>
        let G2 := update_graph_usage G1 (reps : ℚ)
        .ok (G2, rate, gen, links / (reps : ℚ))

/-- The loop body of `_get_star` for one destination: route over the
working copy `T` when possible (removing the path's edges from `T` and
adding its pairs to the accumulating star), otherwise fall back to a
shortest path in the original graph `G` (crashing — `none` — when the
destination is unreachable even there). -/
def starVisit (G : Graph) (s : ℕ) (st : List (ℕ × ℕ × EdgeAttr) × List (ℕ × ℕ)) (d : ℕ) :
    Option (List (ℕ × ℕ × EdgeAttr) × List (ℕ × ℕ)) := do
  let T := st.1
  let J := st.2
  let Tsub : SubGraph := ⟨G.nodeNames, T⟩
  let hp ← hasPath Tsub s d
  if hp then do
    let path ← shortest_path Tsub s d
    let upd := (consecPairs path).foldl
      (fun st2 p =>
        (removeEdge st2.1 p.1 p.2,
         if st2.2.any (fun q => pairMatch p.1 p.2 q.1 q.2) then st2.2 else st2.2 ++ [p]))
      (T, J)
    pure upd
  else do
    let path ← shortest_path ⟨G.nodeNames, G.edges⟩ s d
    let upd := (consecPairs path).foldl
      (fun st2 p =>
        (removeEdge st2.1 p.1 p.2,
         if st2.2.any (fun q => pairMatch p.1 p.2 q.1 q.2) then st2.2 else st2.2 ++ [p]))
      (T, J)
    pure upd

/-- `_get_star(G, users)`: greedy edge-disjoint-where-possible star of
shortest paths from `users[0]` to the remaining users; every star edge
receives the attribute record of the corresponding edge of `G`.  `none`
models the IndexError on empty `users` and the uncaught NetworkXNoPath /
NodeNotFound exceptions. -/
def _get_star (G : Graph) (users : List ℕ) : Option Graph :=
  match users with
  | [] => none
  | s :: dests => do
    let st ← dests.foldlM (starVisit G s) (G.edges, [])
    let es ← st.2.mapM (fun p => (lookupEdge G.edges p.1 p.2).map (fun a => (p.1, p.2, a)))
    pure ⟨G.nodes, es⟩

/-- `SP_protocol(G, users, timesteps, reps, count_fusion)`: build the star
`J`, then run `_run_protocol` on it with `_SD_protocol` and `nodes=True`.
(The final `update_usage_from_subgraph(G, J)` mutates only the caller's
graph; the returned triple is unchanged by it.) -/
def SP_protocol (G : Graph) (users : List ℕ) (timesteps reps : ℤ)
    (count_fusion : Bool) (rs : ℕ → ℚ) : Except RunError (ℚ × List ℚ × ℚ) :=
  match _get_star G users with
  | none => .error .pythonError
  | some J => (_run_protocol J users timesteps reps _SD_protocol true count_fusion rs).map
      (fun r => r.2)

/-- `MPG_protocol`: `_run_protocol` with `_SD_protocol` and `nodes=True`
on the graph itself. -/
def MPG_protocol (G : Graph) (users : List ℕ) (timesteps reps : ℤ)
    (count_fusion : Bool) (rs : ℕ → ℚ) : Except RunError (ℚ × List ℚ × ℚ) :=
  (_run_protocol G users timesteps reps _SD_protocol true count_fusion rs).map (fun r => r.2)

/-- `MPC_protocol`: `_run_protocol` with `_CC_protocol` (and the default
`nodes=False`). -/
def MPC_protocol (G : Graph) (users : List ℕ) (timesteps reps : ℤ)
    (count_fusion : Bool) (rs : ℕ → ℚ) : Except RunError (ℚ × List ℚ × ℚ) :=
  (_run_protocol G users timesteps reps _CC_protocol false count_fusion rs).map (fun r => r.2)

/-! ## Concrete instances used by the claims -/

/-- A fresh node with `Qc = 1` (Scenario A of the specification). -/
def nodeA : NodeAttr := ⟨false, 0, 1, 0, 0⟩

/-- A fresh edge with `p_edge = 1`, `Qc = 1`, `length = 1`. -/
def edgeA : EdgeAttr := ⟨false, 0, 1, 1, 1⟩

/-- Two nodes joined by one edge, `p_edge = 1`, `Qc = 1` (Scenario A). -/
def twoNodeGraph : Graph := ⟨[(0, nodeA), (1, nodeA)], [(0, 1, edgeA)]⟩

/-- A concrete random stream that always draws 0. -/
def rsZero : ℕ → ℚ := fun _ => 0

/-- An entangled node of age 0 with `Qc = 1`: it decoheres on the next
step with node simulation enabled. -/
def nodeEnt : NodeAttr := ⟨true, 0, 1, 0, 0⟩

/-- An unentangled edge that can never generate (`p_edge = 0`). -/
def edgeDead : EdgeAttr := ⟨false, 0, 1, 0, 1⟩

/-- Failing input for claim C1: node 0 is entangled with `age = 0` and
`Qc = 1`, and the graph has one (dead) edge. -/
def bugGraph : Graph := ⟨[(0, nodeEnt), (1, nodeA)], [(0, 1, edgeDead)]⟩

/-- Claim C1 (code behaviour at the failing input): with `include_nodes`
enabled, node 0 of `bugGraph` decoheres during the step (its age reaches
`Qc = 1`), and the code sets its `entangled` to false but leaves its `age`
at 1 — the `age = 0` write of the decoherence branch targets the stale
edge-loop variable (the last edge) instead of the node itself, so the
node's own age is *not* reset to 0 as the specification requires. -/
theorem C1_node_decoherence_leaves_node_age :
    run_entanglement_step bugGraph [] (fun _ => 1/2) 0 true =
      some (⟨[(0, ⟨false, 1, 1, 0, 0⟩), (1, nodeA)], [(0, 1, edgeDead)]⟩, []) := by
  with_unfolding_all rfl

/-- Claim C6: `_multipartite_rate` returns
`success_count / (Σ success_times + failure_count · timesteps)` and fails
with the division-by-zero error exactly when that denominator is zero
(times are exact rationals in this model). -/
theorem C6_rate_formula (times : List ℚ) (timesteps : ℚ) :
    (_multipartite_rate times timesteps = .error .divByZero ↔
      (times.filter (fun t => decide (t ≠ -1))).sum +
        ((times.length - (times.filter (fun t => decide (t ≠ -1))).length : ℕ) : ℚ) *
          timesteps = 0) ∧
    ((times.filter (fun t => decide (t ≠ -1))).sum +
        ((times.length - (times.filter (fun t => decide (t ≠ -1))).length : ℕ) : ℚ) *
          timesteps ≠ 0 →
      _multipartite_rate times timesteps =
        .ok (((times.filter (fun t => decide (t ≠ -1))).length : ℚ) /
          ((times.filter (fun t => decide (t ≠ -1))).sum +
            ((times.length - (times.filter (fun t => decide (t ≠ -1))).length : ℕ) : ℚ) *
              timesteps))) := by
  unfold _multipartite_rate
  constructor
  · constructor
    · intro h
      by_contra hne
      rw [if_neg hne] at h
      exact Except.noConfusion h
    · intro h
      rw [if_pos h]
  · intro h
    rw [if_neg h]

/-- Claim C6 witness: the aggregator at `times = [2, -1]`, `timesteps = 3`
(denominator `2 + 1·3 = 5 ≠ 0`, rate `1/5`), and at `times = [-1]`,
`timesteps = 0` (denominator zero, error). -/
theorem C6_rate_formula_witness :
    _multipartite_rate [2, -1] 3 = .ok (1 / 5) ∧
      _multipartite_rate [-1] 0 = .error .divByZero := by
  constructor
  · have h := (C6_rate_formula [2, -1] 3).2 (by with_unfolding_all decide)
    rw [h]
    with_unfolding_all rfl
  · have h := (C6_rate_formula [-1] 0).1.2 (by with_unfolding_all decide)
    exact h

/-- Claim C8: `get_entangled_subgraph G` has exactly the node set of `G`
and exactly the edges of `G` whose `entangled` attribute is true.  The
result is a fresh value (in the Python code, a fresh `nx.Graph` whose edge
dicts are top-level copies), so mutating it cannot change `G`. -/
theorem C8_entangled_subgraph_exact (G : Graph) :
    (get_entangled_subgraph G).nodes = G.nodeNames ∧
      ∀ u v a, (u, v, a) ∈ (get_entangled_subgraph G).edges ↔
        (u, v, a) ∈ G.edges ∧ a.entangled = true := by
  constructor
  · rfl
  · intro u v a
    unfold get_entangled_subgraph
    simp [List.mem_filter]

/-! ## Per-edge lemmas for the step function -/

/-- Normal form of one edge-loop iteration: the four possible outcomes. -/
lemma stepEdge_cases (e : EdgeAttr) (r : ℚ) :
    stepEdge e r =
      if e.entangled then
        (if e.Qc ≤ e.age + 1 then
          (if e.p_edge > r then { e with entangled := true, age := 0 }
           else { e with entangled := false, age := 0 })
         else { e with age := e.age + 1 })
      else (if e.p_edge > r then { e with entangled := true, age := 0 } else e) := by
  unfold stepEdge edgeDecohere edgeGenerate
  by_cases he : e.entangled <;> by_cases hd : e.Qc ≤ e.age + 1 <;>
    by_cases hg : e.p_edge > r <;> simp [he, hd, hg]

lemma edgeDecohere_p_edge (e : EdgeAttr) : (edgeDecohere e).p_edge = e.p_edge := by
  unfold edgeDecohere
  by_cases he : e.entangled
  · by_cases hd : e.Qc ≤ e.age + 1 <;> simp [he, hd]
  · simp [he]

lemma stepEdge_Qc (e : EdgeAttr) (r : ℚ) : (stepEdge e r).Qc = e.Qc := by
  rw [stepEdge_cases]
  by_cases he : e.entangled <;> by_cases hd : e.Qc ≤ e.age + 1 <;>
    by_cases hg : e.p_edge > r <;> simp [he, hd, hg]

/-- The edge-state invariant of the specification. -/
def edgeOk (e : EdgeAttr) : Prop :=
  (e.entangled = false → e.age = 0) ∧ (e.entangled = true → 0 ≤ e.age ∧ e.age < e.Qc)

/-- The four possible outcomes of one edge-loop iteration. -/
lemma stepEdge_outcomes (e : EdgeAttr) (r : ℚ) :
    stepEdge e r = { e with entangled := true, age := 0 } ∨
      stepEdge e r = { e with entangled := false, age := 0 } ∨
      (stepEdge e r = { e with age := e.age + 1 } ∧ e.entangled = true ∧
        ¬ e.Qc ≤ e.age + 1) ∨
      (stepEdge e r = e ∧ e.entangled = false) := by
  rw [stepEdge_cases]
  by_cases he : e.entangled <;> by_cases hd : e.Qc ≤ e.age + 1 <;>
    by_cases hg : e.p_edge > r <;> simp [he, hd, hg]

lemma stepEdge_ok (e : EdgeAttr) (r : ℚ) (hq : 1 ≤ e.Qc) (h : edgeOk e) :
    edgeOk (stepEdge e r) := by
  obtain ⟨h0, h1⟩ := h
  rcases stepEdge_outcomes e r with h2 | h2 | ⟨h2, he, hd⟩ | ⟨h2, he⟩ <;> rw [h2]
  · refine ⟨fun hc => absurd hc (by simp), fun _ => ⟨le_refl 0, ?_⟩⟩
    show (0 : ℚ) < e.Qc
    linarith
  · exact ⟨fun _ => rfl, fun hc => absurd hc (by simp)⟩
  · refine ⟨fun hc => absurd hc (by simp [he]), fun _ => ⟨?_, ?_⟩⟩
    · show (0 : ℚ) ≤ e.age + 1
      linarith [(h1 he).1]
    · show e.age + 1 < e.Qc
      exact lt_of_not_le hd
  · exact ⟨h0, h1⟩

lemma setAge0_ok (e : EdgeAttr) (hq : 1 ≤ e.Qc) (h : edgeOk e) :
    edgeOk { e with age := 0 } := by
  obtain ⟨_, _⟩ := h
  constructor
  · intro _
    rfl
  · intro _
    refine ⟨le_refl 0, ?_⟩
    show (0 : ℚ) < e.Qc
    linarith

lemma mem_stepEdges {rs : ℕ → ℚ} {es : List (ℕ × ℕ × EdgeAttr)}
    {t1 : ℕ × ℕ × EdgeAttr} :
    ∀ {k : ℕ}, t1 ∈ stepEdges rs k es →
      ∃ t ∈ es, ∃ r, t1 = (t.1, t.2.1, stepEdge t.2.2 r) := by
  induction es with
  | nil => intro k h; exact absurd h (List.not_mem_nil t1)
  | cons t ts ih =>
    intro k h
    rw [stepEdges] at h
    rcases List.mem_cons.mp h with h1 | h1
    · exact ⟨t, List.mem_cons_self t ts, rs k, h1⟩
    · obtain ⟨t2, ht2, r, hr⟩ := ih h1
      exact ⟨t2, List.mem_cons_of_mem t ht2, r, hr⟩

lemma mem_clobberLastEdgeAge {es : List (ℕ × ℕ × EdgeAttr)} {t1 : ℕ × ℕ × EdgeAttr}
    (h : t1 ∈ clobberLastEdgeAge es) :
    t1 ∈ es ∨ ∃ t ∈ es, t1 = (t.1, t.2.1, { t.2.2 with age := 0 }) := by
  induction es with
  | nil => exact absurd h (List.not_mem_nil t1)
  | cons t ts ih =>
    cases ts with
    | nil =>
      rw [clobberLastEdgeAge] at h
      rcases List.mem_cons.mp h with h1 | h1
      · exact Or.inr ⟨t, List.mem_cons_self t [], h1⟩
      · exact absurd h1 (List.not_mem_nil t1)
    | cons t2 ts2 =>
      rw [show clobberLastEdgeAge (t :: t2 :: ts2) = t :: clobberLastEdgeAge (t2 :: ts2) from rfl]
        at h
      rcases List.mem_cons.mp h with h1 | h1
      · exact Or.inl (h1 ▸ List.mem_cons_self t (t2 :: ts2))
      · rcases ih h1 with h2 | ⟨t3, ht3, he⟩
        · exact Or.inl (List.mem_cons_of_mem t h2)
        · exact Or.inr ⟨t3, List.mem_cons_of_mem t ht3, he⟩

/-- The edge list produced by one `run_entanglement_step` call is the edge
loop's output, possibly with the last edge's age clobbered to 0 by the
node loop. -/
lemma step_edges_shape {G : Graph} {used : List UsedPath} {rs : ℕ → ℚ} {k : ℕ}
    {nodes : Bool} {G1 : Graph} {used1 : List UsedPath}
    (hstep : run_entanglement_step G used rs k nodes = some (G1, used1)) :
    G1.edges = stepEdges rs k G.edges ∨
      G1.edges = clobberLastEdgeAge (stepEdges rs k G.edges) := by
  unfold run_entanglement_step at hstep
  cases nodes with
  | false =>
    simp only [if_neg, Bool.false_eq_true, reduceIte, Option.some.injEq, Prod.mk.injEq] at hstep
    exact Or.inl (congrArg Graph.edges hstep.1.symm)
  | true =>
    simp only [reduceIte] at hstep
    by_cases hcrash : (stepNodes G.nodes).2 && decide (stepEdges rs k G.edges = [])
    · rw [if_pos hcrash] at hstep
      exact absurd hstep (Option.noConfusion)
    · rw [if_neg hcrash] at hstep
      obtain ⟨u1, hm, h2⟩ := Option.bind_eq_some.mp hstep
      obtain ⟨u2, hf, h3⟩ := Option.bind_eq_some.mp h2
      simp only [Option.pure_def, Option.some.injEq, Prod.mk.injEq] at h3
      rw [← h3.1]
      dsimp only
      split
      · exact Or.inr rfl
      · exact Or.inl rfl

/-- Claim C2: if every edge of `G` has `Qc ≥ 1` and satisfies the state
invariant (`entangled = false → age = 0` and
`entangled = true → 0 ≤ age < Qc`), then after one (non-crashing) call to
`run_entanglement_step` — for any random draws and either setting of
`include_nodes` — every edge of the resulting graph satisfies the
invariant again. -/
theorem C2_step_preserves_edge_invariant (G : Graph) (used : List UsedPath)
    (rs : ℕ → ℚ) (k : ℕ) (nodes : Bool) (G1 : Graph) (used1 : List UsedPath)
    (hQc : ∀ t ∈ G.edges, 1 ≤ (t.2.2 : EdgeAttr).Qc)
    (hInv : ∀ t ∈ G.edges, edgeOk t.2.2)
    (hstep : run_entanglement_step G used rs k nodes = some (G1, used1)) :
    ∀ t ∈ G1.edges, edgeOk t.2.2 := by
  intro t1 ht1
  rcases step_edges_shape hstep with hsh | hsh
  · rw [hsh] at ht1
    obtain ⟨t, ht, r, hr⟩ := mem_stepEdges ht1
    rw [hr]
    exact stepEdge_ok t.2.2 r (hQc t ht) (hInv t ht)
  · rw [hsh] at ht1
    rcases mem_clobberLastEdgeAge ht1 with h1 | ⟨t2, ht2, he⟩
    · obtain ⟨t, ht, r, hr⟩ := mem_stepEdges h1
      rw [hr]
      exact stepEdge_ok t.2.2 r (hQc t ht) (hInv t ht)
    · obtain ⟨t, ht, r, hr⟩ := mem_stepEdges ht2
      have hq : 1 ≤ t2.2.2.Qc := by
        rw [hr]
        simpa [stepEdge_Qc] using hQc t ht
      have hok : edgeOk t2.2.2 := by
        rw [hr]
        exact stepEdge_ok t.2.2 r (hQc t ht) (hInv t ht)
      rw [he]
      exact setAge0_ok t2.2.2 hq hok

/-- Claim C2 witness: the invariant hypotheses hold for `twoNodeGraph`,
and the theorem applies to the concrete step outcome (the single edge
after the step, previously fresh, is entangled with age 0 and `Qc = 1`). -/
theorem C2_step_preserves_edge_invariant_witness :
    edgeOk (⟨true, 0, 1, 1, 1⟩ : EdgeAttr) :=
  C2_step_preserves_edge_invariant twoNodeGraph [] rsZero 0 false
    ⟨twoNodeGraph.nodes, [(0, 1, ⟨true, 0, 1, 1, 1⟩)]⟩ []
    (by with_unfolding_all decide)
    (by unfold twoNodeGraph edgeA edgeOk; with_unfolding_all decide)
    (by with_unfolding_all rfl)
    (0, 1, ⟨true, 0, 1, 1, 1⟩) (by with_unfolding_all decide)

lemma stepEdges_getElem (rs : ℕ → ℚ) :
    ∀ (es : List (ℕ × ℕ × EdgeAttr)) (k i : ℕ),
      (stepEdges rs k es)[i]? =
        es[i]?.map (fun t => (t.1, t.2.1, stepEdge t.2.2 (rs (k + i)))) := by
  intro es
  induction es with
  | nil => intro k i; simp [stepEdges]
  | cons t ts ih =>
    intro k i
    cases i with
    | zero => simp [stepEdges]
    | succ j =>
      rw [stepEdges]
      simp only [List.getElem?_cons_succ]
      rw [ih (k + 1) j]
      have : k + 1 + j = k + (j + 1) := by omega
      rw [this]

/-- Claim C7: within one `run_entanglement_step` call the generation check
for an edge uses the edge's state after its decoherence update.  For edge
`i` (paired with the draw `rs (k+i)`): (a) the resulting edge state is
`stepEdge` of the old state; (b) an edge that is entangled with
`age + 1 ≥ Qc` (so it decoheres this step) and whose draw satisfies
`p_edge > r` ends the step entangled with age 0 — immediately eligible
again in the same timestep; (c) an edge becomes newly entangled exactly
when it is unentangled after the decoherence update and `p_edge > r`. -/
theorem C7_generation_after_decoherence (G : Graph) (used : List UsedPath)
    (rs : ℕ → ℚ) (k i : ℕ) (u v : ℕ) (e : EdgeAttr) (G1 : Graph)
    (used1 : List UsedPath)
    (hstep : run_entanglement_step G used rs k false = some (G1, used1))
    (hi : G.edges[i]? = some (u, v, e)) :
    G1.edges[i]? = some (u, v, stepEdge e (rs (k + i))) ∧
      (e.entangled = true → e.Qc ≤ e.age + 1 → e.p_edge > rs (k + i) →
        stepEdge e (rs (k + i)) = { e with entangled := true, age := 0 }) ∧
      (((stepEdge e (rs (k + i))).entangled = true ∧
          (edgeDecohere e).entangled = false) ↔
        ((edgeDecohere e).entangled = false ∧ e.p_edge > rs (k + i))) := by
  have hG1 : G1.edges = stepEdges rs k G.edges := by
    unfold run_entanglement_step at hstep
    simp only [Bool.false_eq_true, if_false, Option.some.injEq, Prod.mk.injEq,
      reduceIte] at hstep
    exact congrArg Graph.edges hstep.1.symm
  refine ⟨?_, ?_, ?_⟩
  · rw [hG1, stepEdges_getElem, hi]
    rfl
  · intro h1 h2 h3
    rw [stepEdge_cases]
    simp [h1, h2, h3]
  · unfold stepEdge edgeGenerate
    by_cases hdc : (edgeDecohere e).entangled
    · simp [hdc]
    · rw [edgeDecohere_p_edge]
      by_cases hg : e.p_edge > rs (k + i)
      · simp [hdc, hg]
      · simp [hdc, hg]

/-- The graph of claim C7's witness: one edge, entangled with `age = 0`
and `Qc = 1`, so it decoheres on the next step; `p_edge = 1`. -/
def c7Graph : Graph := ⟨[(0, nodeA), (1, nodeA)], [(0, 1, ⟨true, 0, 1, 1, 1⟩)]⟩

/-- Claim C7 witness: on `c7Graph` with draw 0, the just-decohered edge is
regenerated within the same step (entangled, age 0). -/
theorem C7_generation_after_decoherence_witness :
    stepEdge (⟨true, 0, 1, 1, 1⟩ : EdgeAttr) (rsZero (0 + 0)) =
      { (⟨true, 0, 1, 1, 1⟩ : EdgeAttr) with entangled := true, age := 0 } :=
  (C7_generation_after_decoherence c7Graph [] rsZero 0 0 0 1 ⟨true, 0, 1, 1, 1⟩
      ⟨c7Graph.nodes, [(0, 1, ⟨true, 0, 1, 1, 1⟩)]⟩ []
      (by with_unfolding_all rfl) (by with_unfolding_all rfl)).2.1
    rfl (by norm_num) (by with_unfolding_all decide)

/-! ## Frame lemmas for _create_bell_pair -/

/-- `t` is the (undirected) edge `p`. -/
def matchB (p : ℕ × ℕ) (t : ℕ × ℕ × EdgeAttr) : Bool :=
  pairMatch p.1 p.2 t.1 t.2.1

/-- `t` is one of the pairs of `prs` (i.e. it lies on the path). -/
def MatchesAny (prs : List (ℕ × ℕ)) (t : ℕ × ℕ × EdgeAttr) : Prop :=
  ∃ p ∈ prs, matchB p t = true

instance (prs : List (ℕ × ℕ)) (t : ℕ × ℕ × EdgeAttr) : Decidable (MatchesAny prs t) :=
  inferInstanceAs (Decidable (∃ p ∈ prs, matchB p t = true))

lemma updateEdge_getElem (es : List (ℕ × ℕ × EdgeAttr)) (u v : ℕ)
    (f : EdgeAttr → EdgeAttr) (i : ℕ) :
    (updateEdge es u v f)[i]? =
      es[i]?.map (fun t => if pairMatch u v t.1 t.2.1 then (t.1, t.2.1, f t.2.2) else t) := by
  unfold updateEdge
  rw [List.getElem?_map]

lemma updateNode_getElem (G : Graph) (n : ℕ) (f : NodeAttr → NodeAttr) (i : ℕ) :
    (updateNode G n f).nodes[i]? =
      G.nodes[i]?.map (fun q => if q.1 = n then (q.1, f q.2) else q) := by
  unfold updateNode
  rw [List.getElem?_map]
  cases G.nodes[i]? with
  | none => rfl
  | some q =>
    simp only [Option.map_some']
    by_cases h : q.1 = n
    · simp [h]
    · simp [h]

lemma consumePathEdges_shape :
    ∀ (prs : List (ℕ × ℕ)) (G : Graph) (H : SubGraph) (G2 : Graph) (H2 : SubGraph),
      consumePathEdges prs G H = some (G2, H2) →
      G2.nodes = G.nodes ∧
      H2.nodes = H.nodes ∧
      H2.edges = H.edges.filter (fun t => prs.all (fun p => !matchB p t)) ∧
      ∀ (i : ℕ) (t : ℕ × ℕ × EdgeAttr), G.edges[i]? = some t →
        (¬ MatchesAny prs t → G2.edges[i]? = some t) ∧
        (MatchesAny prs t →
          G2.edges[i]? = some (t.1, t.2.1, { t.2.2 with entangled := false, age := 0 })) := by
  intro prs
  induction prs with
  | nil =>
    intro G H G2 H2 h
    rw [consumePathEdges] at h
    simp only [Option.some.injEq, Prod.mk.injEq] at h
    obtain ⟨hG, hH⟩ := h
    refine ⟨by rw [← hG], by rw [← hH], ?_, ?_⟩
    · rw [← hH]
      simp [List.all_nil, List.filter_true]
    · intro i t ht
      refine ⟨fun _ => by rw [← hG]; exact ht, fun hm => ?_⟩
      obtain ⟨p, hp, _⟩ := hm
      exact absurd hp (List.not_mem_nil p)
  | cons p ps ih =>
    intro G H G2 H2 h
    rw [consumePathEdges] at h
    by_cases hH : hasEdge H.edges p.1 p.2
    · rw [if_pos hH] at h
      by_cases hG : hasEdge G.edges p.1 p.2
      · rw [if_pos hG] at h
        obtain ⟨hn, hhn, hhe, hpt⟩ := ih _ _ _ _ h
        refine ⟨hn, hhn, ?_, ?_⟩
        · rw [hhe]
          show (H.edges.filter fun t => !matchB p t).filter _ = _
          rw [List.filter_filter]
          simp [List.all_cons, Bool.and_comm]
        · intro i t ht
          have hG1 : (updateEdge G.edges p.1 p.2
              (fun a => { a with entangled := false, age := 0 }))[i]? =
              some (if pairMatch p.1 p.2 t.1 t.2.1 then
                (t.1, t.2.1, { t.2.2 with entangled := false, age := 0 }) else t) := by
            rw [updateEdge_getElem, ht]
            rfl
          by_cases hm : matchB p t
          · rw [show (pairMatch p.1 p.2 t.1 t.2.1) = matchB p t from rfl, hm] at hG1
            simp only [if_true] at hG1
            have h2 := hpt i (t.1, t.2.1, { t.2.2 with entangled := false, age := 0 }) hG1
            constructor
            · intro hno
              exact absurd ⟨p, List.mem_cons_self p ps, hm⟩ hno
            · intro _
              by_cases hm2 : MatchesAny ps (t.1, t.2.1,
                  { t.2.2 with entangled := false, age := 0 })
              · have := h2.2 hm2
                exact this
              · exact h2.1 hm2
          · rw [show (pairMatch p.1 p.2 t.1 t.2.1) = matchB p t from rfl] at hG1
            rw [Bool.eq_false_iff.mpr hm] at hG1
            simp only [Bool.false_eq_true, if_false] at hG1
            have h2 := hpt i t hG1
            constructor
            · intro hno
              refine h2.1 fun hm2 => hno ?_
              obtain ⟨q, hq, hqm⟩ := hm2
              exact ⟨q, List.mem_cons_of_mem p hq, hqm⟩
            · intro hyes
              obtain ⟨q, hq, hqm⟩ := hyes
              rcases List.mem_cons.mp hq with h3 | h3
              · exact absurd (h3 ▸ hqm) (Bool.eq_false_iff.mpr hm ▸ by simp [hm])
              · exact h2.2 ⟨q, h3, hqm⟩
      · rw [if_neg hG] at h
        exact absurd h (Option.noConfusion)
    · rw [if_neg hH] at h
      exact absurd h (Option.noConfusion)

/-- Claim C10: when the routing step consumes a path via
`_create_bell_pair`, every edge on the path is removed from the entangled
subgraph `H` and set `entangled = false, age = 0` in the topology graph
`G`; every edge of `G` off the path is unchanged; every node other than
the destination (the path's last node) is unchanged, and the destination
only has its `entangled`/`age` fields changed (to `true`/`0`); finally the
used-path record is appended. -/
theorem C10_bell_pair_frame (G : Graph) (H : SubGraph) (path : List ℕ)
    (used : List UsedPath) (dest : ℕ) (G1 : Graph) (H1 : SubGraph)
    (used1 : List UsedPath) (hdest : path.getLast? = some dest)
    (h : _create_bell_pair G H path used = some (G1, H1, used1)) :
    H1.nodes = H.nodes ∧
    H1.edges = H.edges.filter
      (fun t => (consecPairs path).all (fun p => !matchB p t)) ∧
    (∀ (i : ℕ) (t : ℕ × ℕ × EdgeAttr), G.edges[i]? = some t →
      (¬ MatchesAny (consecPairs path) t → G1.edges[i]? = some t) ∧
      (MatchesAny (consecPairs path) t →
        G1.edges[i]? = some (t.1, t.2.1, { t.2.2 with entangled := false, age := 0 }))) ∧
    (∀ (i : ℕ) (q : ℕ × NodeAttr), G.nodes[i]? = some q →
      (q.1 ≠ dest → G1.nodes[i]? = some q) ∧
      (q.1 = dest →
        G1.nodes[i]? = some (q.1, { q.2 with entangled := true, age := 0 }))) ∧
    used1 = used ++ [⟨(path.drop 1).dropLast, (path.length : ℚ) - 1, some 0, some dest⟩] := by
  unfold _create_bell_pair at h
  obtain ⟨gh, hgh, h2⟩ := Option.bind_eq_some.mp h
  obtain ⟨d, hd, h3⟩ := Option.bind_eq_some.mp h2
  obtain ⟨a, ha, h4⟩ := Option.bind_eq_some.mp h3
  rw [hdest] at hd
  cases hd
  simp only [Option.pure_def, Option.some.injEq, Prod.mk.injEq] at h4
  obtain ⟨hG1, hH1, hused1⟩ := h4
  obtain ⟨hn, hhn, hhe, hpt⟩ := consumePathEdges_shape (consecPairs path) G H gh.1 gh.2 hgh
  refine ⟨by rw [← hH1]; exact hhn, by rw [← hH1]; exact hhe, ?_, ?_, hused1.symm⟩
  · intro i t ht
    have hedges : G1.edges = gh.1.edges := by
      rw [← hG1]
      rfl
    rw [hedges]
    exact hpt i t ht
  · intro i q hq
    have hidx : gh.1.nodes[i]? = some q := by
      rw [hn]
      exact hq
    constructor
    · intro hne
      rw [← hG1, updateNode_getElem, hidx]
      simp [hne]
    · intro heq
      rw [← hG1, updateNode_getElem, hidx]
      simp [heq]

/-- The entangled subgraph used in claim C10's witness. -/
def c10H : SubGraph := ⟨[0, 1], [(0, 1, ⟨true, 0, 1, 1, 1⟩)]⟩

/-- Claim C10 witness: consuming the path `[0, 1]` on `c7Graph` resets the
consumed edge to `entangled = false, age = 0` in the topology graph. -/
theorem C10_bell_pair_frame_witness :
    (⟨[(0, nodeA), (1, ⟨true, 0, 1, 0, 0⟩)],
        [(0, 1, (⟨false, 0, 1, 1, 1⟩ : EdgeAttr))]⟩ : Graph).edges[0]? =
      some (0, 1, { (⟨true, 0, 1, 1, 1⟩ : EdgeAttr) with entangled := false, age := 0 }) :=
  ((C10_bell_pair_frame c7Graph c10H [0, 1] [] 1
        ⟨[(0, nodeA), (1, ⟨true, 0, 1, 0, 0⟩)], [(0, 1, ⟨false, 0, 1, 1, 1⟩)]⟩ ⟨[0, 1], []⟩
        [⟨[], (([0, 1] : List ℕ).length : ℚ) - 1, some 0, some 1⟩]
        (by with_unfolding_all rfl) (by with_unfolding_all rfl)).2.2.1 0
      (0, 1, ⟨true, 0, 1, 1, 1⟩) (by with_unfolding_all rfl)).2
    (by with_unfolding_all decide)

/-! ## Node classification in the connected-component strategy -/

/-- The Steiner tree `K` computed by `_CC_protocol` for a user list headed
by `u0`. -/
def ccTree (H : SubGraph) (users : List ℕ) (u0 : ℕ) : SubGraph :=
  steinerTree (inducedSub H (connComp H u0)) users

/-- `_count_node` decides exactly the specification's classification
table. -/
lemma count_node_iff (K : SubGraph) (n : ℕ) (users : List ℕ) (cf : Bool) :
    _count_node K n users cf = true ↔
      ((degreeIn K.edges n = 2 ∧ (n ∉ users ∨ cf = true)) ∨
        (2 < degreeIn K.edges n ∧ cf = true)) := by
  unfold _count_node
  by_cases h2 : degreeIn K.edges n = 2
  · rw [if_pos h2]
    by_cases hu : n ∈ users <;> by_cases hc : cf <;> simp [hu, hc, h2]
  · rw [if_neg h2]
    by_cases h3 : degreeIn K.edges n > 2 <;> by_cases hc : cf <;> simp [h2, h3, hc]

/-- Claim C9: on a successful `_CC_protocol` step, the appended used-path
entry lists exactly the nodes of the Steiner tree `K` of degree 2 (unless
the node is a user and `count_fusion` is false) or of degree above 2 (only
when `count_fusion` is true); nodes of degree below 2 are never listed;
and the entry's `edge_count` is the number of edges of `K`. -/
theorem C9_steiner_node_classification (G : Graph) (H : SubGraph) (u0 : ℕ)
    (rest : List ℕ) (used : List UsedPath) (cf : Bool) (G1 : Graph)
    (H1 : SubGraph) (used1 : List UsedPath)
    (h : _CC_protocol G H (u0 :: rest) used cf = some (true, G1, H1, used1)) :
    used1 = used ++
      [⟨(ccTree H (u0 :: rest) u0).nodes.filter
          (fun n => _count_node (ccTree H (u0 :: rest) u0) n (u0 :: rest) cf),
        ((ccTree H (u0 :: rest) u0).edges.length : ℚ), none, none⟩] ∧
    (∀ n : ℕ,
      n ∈ (ccTree H (u0 :: rest) u0).nodes.filter
          (fun n => _count_node (ccTree H (u0 :: rest) u0) n (u0 :: rest) cf) ↔
        n ∈ (ccTree H (u0 :: rest) u0).nodes ∧
          ((degreeIn (ccTree H (u0 :: rest) u0).edges n = 2 ∧
              (n ∉ u0 :: rest ∨ cf = true)) ∨
            (2 < degreeIn (ccTree H (u0 :: rest) u0).edges n ∧ cf = true))) ∧
    (∀ n : ℕ, degreeIn (ccTree H (u0 :: rest) u0).edges n < 2 →
      n ∉ (ccTree H (u0 :: rest) u0).nodes.filter
        (fun n => _count_node (ccTree H (u0 :: rest) u0) n (u0 :: rest) cf)) := by
  have hmem : ∀ n : ℕ,
      n ∈ (ccTree H (u0 :: rest) u0).nodes.filter
          (fun n => _count_node (ccTree H (u0 :: rest) u0) n (u0 :: rest) cf) ↔
        n ∈ (ccTree H (u0 :: rest) u0).nodes ∧
          ((degreeIn (ccTree H (u0 :: rest) u0).edges n = 2 ∧
              (n ∉ u0 :: rest ∨ cf = true)) ∨
            (2 < degreeIn (ccTree H (u0 :: rest) u0).edges n ∧ cf = true)) := by
    intro n
    rw [List.mem_filter, count_node_iff]
  refine ⟨?_, hmem, ?_⟩
  · simp only [_CC_protocol] at h
    by_cases hm : u0 ∈ H.nodes
    · rw [if_pos hm] at h
      by_cases hall : (u0 :: rest).all (fun u => (connComp H u0).contains u)
      · rw [if_pos hall] at h
        simp only [Option.some.injEq, Prod.mk.injEq] at h
        exact h.2.2.2.symm
      · rw [if_neg hall] at h
        simp at h
    · rw [if_neg hm] at h
      exact absurd h (Option.noConfusion)
  · intro n hdeg hn
    rcases ((hmem n).mp hn).2 with ⟨h2, _⟩ | ⟨h3, _⟩
    · omega
    · omega

/-- Claim C9 witness: on the two-node entangled subgraph with users
`[0, 1]`, the protocol succeeds and both tree nodes have degree 1, so the
recorded node list is empty and `edge_count` is 1. -/
theorem C9_steiner_node_classification_witness :
    ([⟨[], 1, none, none⟩] : List UsedPath) = [] ++
      [⟨(ccTree c10H [0, 1] 0).nodes.filter
          (fun n => _count_node (ccTree c10H [0, 1] 0) n [0, 1] false),
        ((ccTree c10H [0, 1] 0).edges.length : ℚ), none, none⟩] :=
  (C9_steiner_node_classification c7Graph c10H 0 [1] [] false c7Graph c10H
      [⟨[], 1, none, none⟩] (by with_unfolding_all rfl)).1

/-! ## Soundness and completeness of the simple-path enumeration -/

lemma mem_nbrs (E : List (ℕ × ℕ)) (u x : ℕ) : x ∈ nbrs E u ↔ edgeRel E u x := by
  unfold nbrs edgeRel
  rw [List.mem_filterMap]
  constructor
  · rintro ⟨p, hp, hf⟩
    by_cases h1 : p.1 = u
    · rw [if_pos (by exact beq_iff_eq.mpr h1)] at hf
      obtain rfl := Option.some.inj hf
      left
      have : (u, p.2) = p := by
        rw [← h1]
      rw [this]
      exact hp
    · rw [if_neg (by simpa using h1)] at hf
      by_cases h2 : p.2 = u
      · rw [if_pos (by exact beq_iff_eq.mpr h2)] at hf
        obtain rfl := Option.some.inj hf
        right
        have : (p.1, u) = p := by
          rw [← h2]
        rw [this]
        exact hp
      · rw [if_neg (by simpa using h2)] at hf
        exact absurd hf (Option.noConfusion)
  · rintro (h | h)
    · refine ⟨(u, x), h, ?_⟩
      simp
    · refine ⟨(x, u), h, ?_⟩
      by_cases hxu : x = u
      · simp [hxu]
      · simp [hxu]

lemma not_mem_of_not_contains {l : List ℕ} {x : ℕ} (h : (!l.contains x) = true) :
    x ∉ l := by
  simp at h
  exact h

/-- Soundness of the depth-first enumeration: every produced list is a
simple path from `cur` to `d` avoiding the visited set (except at its
head). -/
lemma spAux_sound (E : List (ℕ × ℕ)) (d : ℕ) :
    ∀ (f : ℕ) (cur : ℕ) (vis : List ℕ) (p : List ℕ),
      cur ∈ vis → p ∈ spAux E d f cur vis →
      p.head? = some cur ∧ p.getLast? = some d ∧ p.Chain' (edgeRel E) ∧ p.Nodup ∧
        ∀ x ∈ p, x ≠ cur → x ∉ vis := by
  intro f
  induction f with
  | zero =>
    intro cur vis p hcv hp
    rw [spAux] at hp
    by_cases hd : cur = d
    · rw [if_pos hd] at hp
      obtain rfl : p = [d] := by simpa using hp
      refine ⟨by simp [hd], rfl, List.chain'_singleton d, List.nodup_singleton d, ?_⟩
      intro x hx hne
      obtain rfl : x = d := by simpa using hx
      exact absurd hd.symm hne
    · rw [if_neg hd] at hp
      exact absurd hp (List.not_mem_nil p)
  | succ f ih =>
    intro cur vis p hcv hp
    rw [spAux] at hp
    by_cases hd : cur = d
    · rw [if_pos hd] at hp
      obtain rfl : p = [d] := by simpa using hp
      refine ⟨by simp [hd], rfl, List.chain'_singleton d, List.nodup_singleton d, ?_⟩
      intro x hx hne
      obtain rfl : x = d := by simpa using hx
      exact absurd hd.symm hne
    · rw [if_neg hd] at hp
      rw [List.mem_flatMap] at hp
      obtain ⟨x, hx, hpx⟩ := hp
      rw [List.mem_filter] at hx
      have hxv : x ∉ vis := not_mem_of_not_contains hx.2
      have hxn : edgeRel E cur x := (mem_nbrs E cur x).mp hx.1
      rw [List.mem_map] at hpx
      obtain ⟨q, hq, rfl⟩ := hpx
      obtain ⟨hh, hl, hc, hn, hv⟩ :=
        ih x (x :: vis) q (List.mem_cons_self x vis) hq
      obtain ⟨q1, rfl⟩ : ∃ q1, q = x :: q1 := by
        cases q with
        | nil => exact absurd hh (by simp)
        | cons a q1 =>
          have ha : a = x := by simpa using hh
          exact ⟨q1, by rw [ha]⟩
      refine ⟨rfl, ?_, ?_, ?_, ?_⟩
      · rw [List.getLast?_cons_cons]
        exact hl
      · exact List.chain'_cons.mpr ⟨hxn, hc⟩
      · rw [List.nodup_cons]
        refine ⟨fun hcur => ?_, hn⟩
        have hne : cur ≠ x := fun he => hxv (he ▸ hcv)
        exact (hv cur hcur hne) (List.mem_cons_of_mem x hcv)
      · intro y hy hyne
        rcases List.mem_cons.mp hy with rfl | hy2
        · exact absurd rfl hyne
        · by_cases hyx : y = x
          · exact hyx ▸ hxv
          · intro hyv
            exact hv y hy2 hyx (List.mem_cons_of_mem x hyv)

/-- Completeness of the depth-first enumeration: every simple path whose
length fits in the fuel and which avoids the visited set is produced. -/
lemma spAux_complete (E : List (ℕ × ℕ)) (d : ℕ) :
    ∀ (f : ℕ) (q : List ℕ) (cur : ℕ) (vis : List ℕ),
      q.head? = some cur → q.getLast? = some d → q.Chain' (edgeRel E) →
      q.Nodup → (∀ x ∈ q, x ≠ cur → x ∉ vis) → q.length ≤ f + 1 →
      q ∈ spAux E d f cur vis := by
  intro f
  induction f with
  | zero =>
    intro q cur vis hh hl _ _ _ hlen
    cases q with
    | nil => exact absurd hh (by simp)
    | cons a t =>
      have hac : a = cur := by simpa using hh
      subst hac
      cases t with
      | nil =>
        have had : a = d := by simpa using hl
        rw [spAux, if_pos had]
        exact List.mem_singleton.mpr (by rw [had])
      | cons b t2 =>
        have : (a :: b :: t2).length = t2.length + 2 := by simp
        omega
  | succ f ih =>
    intro q cur vis hh hl hch hnd hvis hlen
    cases q with
    | nil => exact absurd hh (by simp)
    | cons a t =>
      have hac : a = cur := by simpa using hh
      subst hac
      cases t with
      | nil =>
        have had : a = d := by simpa using hl
        rw [spAux, if_pos had]
        exact List.mem_singleton.mpr (by rw [had])
      | cons x t2 =>
        have hd : a ≠ d := by
          intro he
          have hdm : d ∈ x :: t2 := by
            have h1 := hl
            rw [List.getLast?_cons_cons] at h1
            obtain ⟨hne, heq⟩ := List.mem_getLast?_eq_getLast (Option.mem_def.mpr h1)
            rw [heq]
            exact List.getLast_mem hne
          exact (List.nodup_cons.mp hnd).1 (he ▸ hdm)
        rw [spAux, if_neg hd]
        rw [List.mem_flatMap]
        have hcx : edgeRel E a x := (List.chain'_cons.mp hch).1
        have hxq : x ∈ a :: x :: t2 := List.mem_cons_of_mem a (List.mem_cons_self x t2)
        have hxcur : x ≠ a := by
          intro he
          exact (List.nodup_cons.mp hnd).1 (he ▸ List.mem_cons_self x t2)
        refine ⟨x, ?_, ?_⟩
        · rw [List.mem_filter]
          refine ⟨(mem_nbrs E a x).mpr hcx, ?_⟩
          simp [hvis x hxq hxcur]
        · rw [List.mem_map]
          refine ⟨x :: t2, ?_, rfl⟩
          apply ih (x :: t2) x (x :: vis) rfl
          · rw [List.getLast?_cons_cons] at hl
            exact hl
          · exact (List.chain'_cons.mp hch).2
          · exact (List.nodup_cons.mp hnd).2
          · intro y hy hyx
            have hycur : y ≠ a := by
              intro he
              exact (List.nodup_cons.mp hnd).1 (he ▸ hy)
            have h2 := hvis y (List.mem_cons_of_mem a hy) hycur
            intro hmem
            rcases List.mem_cons.mp hmem with h1 | h1
            · exact hyx h1
            · exact h2 h1
          · have : (a :: x :: t2).length = (x :: t2).length + 1 := by simp
            omega

/-- The endpoints of the edges of `E` (with multiplicity). -/
def epList (E : List (ℕ × ℕ)) : List ℕ :=
  E.flatMap (fun p => [p.1, p.2])

lemma epList_length (E : List (ℕ × ℕ)) : (epList E).length = 2 * E.length := by
  induction E with
  | nil => rfl
  | cons p ps ih =>
    show ([p.1, p.2] ++ epList ps).length = _
    rw [List.length_append, ih]
    simp
    omega

lemma edgeRel_mem_epList {E : List (ℕ × ℕ)} {u v : ℕ} (h : edgeRel E u v) :
    u ∈ epList E ∧ v ∈ epList E := by
  unfold epList
  rcases h with h | h
  · exact ⟨List.mem_flatMap.mpr ⟨(u, v), h, by simp⟩,
      List.mem_flatMap.mpr ⟨(u, v), h, by simp⟩⟩
  · exact ⟨List.mem_flatMap.mpr ⟨(v, u), h, by simp⟩,
      List.mem_flatMap.mpr ⟨(v, u), h, by simp⟩⟩

lemma chain_mem_epList (E : List (ℕ × ℕ)) :
    ∀ (q : List ℕ), q.Chain' (edgeRel E) → 2 ≤ q.length →
      ∀ x ∈ q, x ∈ epList E := by
  intro q
  induction q with
  | nil => intro _ _ x hx; cases hx
  | cons a t ih =>
    intro hch hlen x hx
    cases t with
    | nil => simp at hlen
    | cons b t2 =>
      have hab : edgeRel E a b := (List.chain'_cons.mp hch).1
      have hbt := (List.chain'_cons.mp hch).2
      rcases List.mem_cons.mp hx with rfl | hx2
      · exact (edgeRel_mem_epList hab).1
      · cases t2 with
        | nil =>
          obtain rfl : x = b := by simpa using hx2
          exact (edgeRel_mem_epList hab).2
        | cons c t3 =>
          exact ih hbt (by simp) x hx2

/-- A simple path's length is bounded by the enumeration fuel plus one. -/
lemma simplePath_length_le {E : List (ℕ × ℕ)} {s d : ℕ} {q : List ℕ}
    (h : IsSimplePath E s d q) : q.length ≤ 2 * E.length + 2 := by
  obtain ⟨_, _, hch, hnd⟩ := h
  by_cases hlen : q.length ≤ 1
  · omega
  · have h2 : 2 ≤ q.length := by omega
    have hsub : ∀ x ∈ q, x ∈ epList E := chain_mem_epList E q hch h2
    have hcard : q.length = q.toFinset.card := (List.toFinset_card_of_nodup hnd).symm
    have hle : q.toFinset ⊆ (epList E).toFinset := by
      intro x hx
      rw [List.mem_toFinset] at hx
      rw [List.mem_toFinset]
      exact hsub x hx
    have := Finset.card_le_card hle
    have h3 := List.toFinset_card_le (epList E)
    rw [epList_length] at h3
    omega

lemma mem_simplePaths_of_isSimplePath {E : List (ℕ × ℕ)} {s d : ℕ} {q : List ℕ}
    (h : IsSimplePath E s d q) : q ∈ simplePaths E s d := by
  obtain ⟨hh, hl, hc, hn⟩ := h
  apply spAux_complete E d (2 * E.length + 1) q s [s] hh hl hc hn
  · intro x _ hxs
    simpa using hxs
  · exact simplePath_length_le ⟨hh, hl, hc, hn⟩

lemma isSimplePath_of_mem_simplePaths {E : List (ℕ × ℕ)} {s d : ℕ} {q : List ℕ}
    (h : q ∈ simplePaths E s d) : IsSimplePath E s d q := by
  obtain ⟨hh, hl, hc, hn, _⟩ :=
    spAux_sound E d (2 * E.length + 1) s [s] q (List.mem_singleton.mpr rfl) h
  exact ⟨hh, hl, hc, hn⟩

instance (E : List (ℕ × ℕ)) (s d : ℕ) (q : List ℕ) : Decidable (IsSimplePath E s d q) :=
  inferInstanceAs (Decidable (_ ∧ _ ∧ _ ∧ _))

/-- Claim C3 (amended): the `shortest_path` query used by `_SD_protocol`
and `_get_star` (networkx `shortest_path` with no `weight` argument)
returns a simple path that minimises the number of edges (hops), not the
total `length` attribute. -/
theorem C3_amended_hop_minimal (H : SubGraph) (s d : ℕ) (p : List ℕ)
    (h : shortest_path H s d = some p) :
    IsSimplePath H.edgePairs s d p ∧
      ∀ q : List ℕ, IsSimplePath H.edgePairs s d q → p.length ≤ q.length := by
  unfold shortest_path at h
  by_cases hm : s ∈ H.nodes ∧ d ∈ H.nodes
  · rw [if_pos hm] at h
    have hpm : p ∈ simplePaths H.edgePairs s d :=
      List.argmin_mem (Option.mem_def.mpr h)
    refine ⟨isSimplePath_of_mem_simplePaths hpm, fun q hq => ?_⟩
    exact List.le_of_mem_argmin (mem_simplePaths_of_isSimplePath hq)
      (Option.mem_def.mpr h)
  · rw [if_neg hm] at h
    exact absurd h (Option.noConfusion)

/-- An entangled edge of the given `length` (for the claim C3 graphs). -/
def eLen (l : ℚ) : EdgeAttr := ⟨true, 0, 1, 1, l⟩

/-- A triangle: the direct edge 0–1 has length 10, the two-hop route
0–2–1 has total length 2. -/
def gC3 : SubGraph := ⟨[0, 1, 2], [(0, 1, eLen 10), (0, 2, eLen 1), (2, 1, eLen 1)]⟩

/-- The same triangle as a topology graph (for the star builder). -/
def gC3G : Graph :=
  ⟨[(0, nodeA), (1, nodeA), (2, nodeA)],
   [(0, 1, eLen 10), (0, 2, eLen 1), (2, 1, eLen 1)]⟩

/-- The two-hop route of the triangle is a simple path. -/
lemma gC3_path021 : IsSimplePath gC3.edgePairs 0 1 [0, 2, 1] := by
  refine ⟨rfl, rfl, ?_, by simp⟩
  refine List.chain'_cons.mpr ⟨?_, List.chain'_cons.mpr ⟨?_, List.chain'_singleton 1⟩⟩
  · exact Or.inl (by with_unfolding_all decide)
  · exact Or.inl (by with_unfolding_all decide)

/-- Claim C3 counterexample: on the triangle, the code's query returns the
one-hop path `[0, 1]` of total length 10 although the valid path
`[0, 2, 1]` has total length 2 — so the query does *not* minimise the sum
of edge `length` attributes — and the star builder consequently builds the
star out of the length-10 edge. -/
theorem C3_counterexample :
    shortest_path gC3 0 1 = some [0, 1] ∧
      IsSimplePath gC3.edgePairs 0 1 [0, 2, 1] ∧
      pathLength gC3.edges [0, 2, 1] < pathLength gC3.edges [0, 1] ∧
      _get_star gC3G [0, 1] = some ⟨gC3G.nodes, [(0, 1, eLen 10)]⟩ := by
  refine ⟨by with_unfolding_all rfl, gC3_path021,
    by with_unfolding_all decide, by with_unfolding_all rfl⟩

/-- Claim C3 (amended) witness: on the triangle the returned path `[0, 1]`
is a simple path and is hop-minimal, e.g. not longer than `[0, 2, 1]`. -/
theorem C3_amended_hop_minimal_witness :
    IsSimplePath gC3.edgePairs 0 1 [0, 1] ∧
      ([0, 1] : List ℕ).length ≤ ([0, 2, 1] : List ℕ).length :=
  ⟨(C3_amended_hop_minimal gC3 0 1 [0, 1] (by with_unfolding_all rfl)).1,
   (C3_amended_hop_minimal gC3 0 1 [0, 1] (by with_unfolding_all rfl)).2
     [0, 2, 1] gC3_path021⟩

/-! ## Concrete protocol runs on the two-node topology -/

lemma stepEdge_edgeA (r : ℚ) :
    stepEdge edgeA r = if edgeA.p_edge > r then ⟨true, 0, 1, 1, 1⟩ else edgeA := by
  rw [stepEdge_cases]
  rfl

/-- Resetting the state after a step on the fresh two-node graph restores
the fresh two-node graph. -/
lemma reset_after_step (r : ℚ) :
    reset_graph_state ⟨[(0, nodeA), (1, nodeA)], [(0, 1, stepEdge edgeA r)]⟩ =
      twoNodeGraph := by
  rw [stepEdge_edgeA]
  by_cases h : edgeA.p_edge > r
  · rw [if_pos h]
    rfl
  · rw [if_neg h]
    rfl

lemma step_single_edge (ns : List (ℕ × NodeAttr)) (e : EdgeAttr)
    (used : List UsedPath) (rs : ℕ → ℚ) (k : ℕ) :
    run_entanglement_step ⟨ns, [(0, 1, e)]⟩ used rs k false =
      some (⟨ns, [(0, 1, stepEdge e (rs k))]⟩, used) := rfl

lemma mem_ccAux (E : List (ℕ × ℕ)) :
    ∀ (f : ℕ) (fr seen : List ℕ) (x : ℕ), x ∈ seen → x ∈ ccAux E f fr seen := by
  intro f
  induction f with
  | zero => intro fr seen x hx; exact hx
  | succ f ih =>
    intro fr seen x hx
    rw [ccAux]
    cases hnew : (fr.flatMap (nbrs E)).filter (fun y => !seen.contains y) with
    | nil => exact hx
    | cons a l =>
      exact ih _ _ x (List.mem_append_left _ hx)

/-- With a single user, `_CC_protocol` always succeeds (the user is in its
own connected component) and records an empty node list with edge count
0 (the Steiner tree of one terminal has no edges). -/
lemma cc_single_user (G : Graph) (H : SubGraph) (used : List UsedPath) (cf : Bool)
    (h0 : (0 : ℕ) ∈ H.nodes) :
    _CC_protocol G H [0] used cf = some (true, G, H, used ++ [⟨[], 0, none, none⟩]) := by
  simp only [_CC_protocol, if_pos h0]
  have hall : ([0] : List ℕ).all (fun u => (connComp H 0).contains u) = true := by
    simp only [List.all_cons, List.all_nil, Bool.and_true]
    exact List.elem_eq_true_of_mem (mem_ccAux _ _ _ _ 0 (List.mem_singleton.mpr rfl))
  rw [if_pos hall]
  have hK : steinerTree (inducedSub H (connComp H 0)) [0] = ⟨[], []⟩ := by
    with_unfolding_all rfl
  rw [hK]
  simp

lemma applySuccess_empty_entry (G : Graph) (links : ℚ) :
    applySuccess [⟨[], 0, none, none⟩] G links = some (G, links + 0) := rfl

/-- One trial of the single-user cooperative run on the two-node graph:
it succeeds at the first timestep regardless of the draw. -/
lemma trial_cc_single (rs : ℕ → ℚ) (f k : ℕ) (t : ℚ) :
    trialLoop [0] _CC_protocol false false rs (f + 1) twoNodeGraph [] t k =
      some (⟨[(0, nodeA), (1, nodeA)], [(0, 1, stepEdge edgeA (rs k))]⟩,
        [⟨[], 0, none, none⟩], some (t + 1), k + 1) := by
  rw [trialLoop]
  rw [show run_entanglement_step twoNodeGraph [] rs k false =
      some (⟨[(0, nodeA), (1, nodeA)], [(0, 1, stepEdge edgeA (rs k))]⟩, []) from rfl]
  dsimp only
  rw [cc_single_user _ _ _ _ (List.mem_cons_self 0 [1])]
  rfl

/-- The trial loop of the single-user cooperative run, iterated over any
number of repetitions. -/
lemma runTrials_cc_single (rs : ℕ → ℚ) (T : ℤ) (hT : 0 < T) :
    ∀ (i : ℕ) (G : Graph) (k : ℕ) (gen : List ℚ) (links : ℚ),
      reset_graph_state G = twoNodeGraph →
      ∃ Gf, runTrials [0] _CC_protocol false false rs T i G k gen links =
          some (Gf, gen ++ List.replicate i 1, links, k + i) ∧
        reset_graph_state Gf = twoNodeGraph := by
  intro i
  induction i with
  | zero =>
    intro G k gen links hres
    refine ⟨G, ?_, hres⟩
    rw [runTrials]
    simp
  | succ i ih =>
    intro G k gen links hres
    obtain ⟨f, hf⟩ : ∃ f, T.toNat = f + 1 := ⟨T.toNat - 1, by omega⟩
    rw [runTrials, hres, hf, trial_cc_single]
    dsimp only
    rw [applySuccess_empty_entry]
    dsimp only
    rw [show ((0 : ℚ) + 1) = 1 from zero_add 1, show links + 0 = links from add_zero links]
    obtain ⟨Gf, hrun, hGf⟩ :=
      ih ⟨[(0, nodeA), (1, nodeA)], [(0, 1, stepEdge edgeA (rs k))]⟩ (k + 1)
        (gen ++ [1]) links (reset_after_step (rs k))
    refine ⟨Gf, ?_, hGf⟩
    rw [hrun]
    simp [List.replicate_succ, List.append_assoc, Nat.add_comm, Nat.add_assoc,
      Nat.add_left_comm]

lemma rate_replicate_ones (n : ℕ) (hn : 0 < n) (T : ℚ) :
    _multipartite_rate (List.replicate n 1) T = .ok 1 := by
  unfold _multipartite_rate
  have hfil : (List.replicate n (1 : ℚ)).filter (fun t => decide (t ≠ -1)) =
      List.replicate n 1 := by
    apply List.filter_eq_self.mpr
    intro a ha
    rw [List.eq_of_mem_replicate ha]
    norm_num
  have hsum : (List.replicate n (1 : ℚ)).sum = n := by
    rw [List.sum_replicate]
    simp
  have hne : ((n : ℚ)) ≠ 0 := Nat.cast_ne_zero.mpr (by omega)
  rw [hfil]
  simp only [List.length_replicate, Nat.sub_self, Nat.cast_zero, zero_mul, add_zero, hsum]
  rw [if_neg hne, div_self hne]

lemma rate_nil (T : ℚ) : _multipartite_rate [] T = .error .divByZero := by
  unfold _multipartite_rate
  simp

/-- Claim C4 (amended): `_run_protocol` performs no argument validation.
A cooperative-protocol call with the single user `[0]` — fewer than the
two users the specification demands — runs its trials normally and
returns results (`rate = 1`, one success per repetition, no links used)
whenever `reps > 0` and `timesteps > 0`; and a call with `reps = 0` is
not rejected up front either: it runs no trial and then fails inside the
rate aggregator with a division-by-zero error, not `InvalidArgument`
(which does not exist in the code). -/
theorem C4_no_validation (rs : ℕ → ℚ) (timesteps reps : ℤ)
    (hr : 0 < reps) (ht : 0 < timesteps) :
    MPC_protocol twoNodeGraph [0] timesteps reps false rs =
      .ok (1, List.replicate reps.toNat 1, 0) ∧
    MPC_protocol twoNodeGraph [0] timesteps 0 false rs = .error .divByZero := by
  constructor
  · unfold MPC_protocol _run_protocol
    rw [if_neg (by omega : ¬ reps < 0)]
    obtain ⟨Gf, hrun, _⟩ := runTrials_cc_single rs timesteps ht reps.toNat
      (reset_graph_usage twoNodeGraph) 0 [] 0 (by rfl)
    rw [List.nil_append] at hrun
    dsimp only
    rw [hrun]
    dsimp only
    rw [rate_replicate_ones reps.toNat (by omega) ((timesteps : ℤ) : ℚ)]
    dsimp only [Except.map]
    rw [zero_div]
  · unfold MPC_protocol _run_protocol
    rw [if_neg (by omega : ¬ (0 : ℤ) < 0)]
    dsimp only
    rw [show runTrials [0] _CC_protocol false false rs timesteps (0 : ℤ).toNat
        (reset_graph_usage twoNodeGraph) 0 [] 0 =
        some (reset_graph_usage twoNodeGraph, [], 0, 0) from rfl]
    dsimp only
    rw [rate_nil]
    rfl

/-- Claim C4 counterexample: a call with a single user (fewer than 2),
positive `reps` and `timesteps`, does not fail with any error and performs
a (vacuously successful) trial — the runner returns `rate = 1` with
per-trial time 1 instead of raising `InvalidArgument` before any trial. -/
theorem C4_counterexample :
    MPC_protocol twoNodeGraph [0] 1 1 false rsZero = .ok (1, [1], 0) := by
  with_unfolding_all rfl

/-- Claim C4 (amended) witness: the single-user call with `timesteps = 5`
and `reps = 3` returns results, and the `reps = 0` call fails with the
aggregator's division-by-zero. -/
theorem C4_no_validation_witness :
    MPC_protocol twoNodeGraph [0] 5 3 false rsZero =
      .ok (1, List.replicate (3 : ℤ).toNat 1, 0) ∧
    MPC_protocol twoNodeGraph [0] 5 0 false rsZero = .error .divByZero :=
  C4_no_validation rsZero 5 3 (by decide) (by decide)

/-! ## Scenario A: two nodes, one edge, p_edge = 1, Qc = 1 -/

/-- With any draw below 1 the fresh edge becomes entangled (p_edge = 1). -/
lemma stepEdge_edgeA_lt (r : ℚ) (h : r < 1) :
    stepEdge edgeA r = ⟨true, 0, 1, 1, 1⟩ := by
  rw [stepEdge_edgeA, if_pos (show edgeA.p_edge > r from h)]

/-- One step with node simulation on the fresh two-node graph: the edge
becomes entangled and the (fresh) nodes are unchanged. -/
lemma step_two_nodes (rs : ℕ → ℚ) (k : ℕ) (h : rs k < 1) :
    run_entanglement_step twoNodeGraph [] rs k true =
      some (⟨[(0, nodeA), (1, nodeA)], [(0, 1, ⟨true, 0, 1, 1, 1⟩)]⟩, []) := by
  rw [show run_entanglement_step twoNodeGraph [] rs k true =
      run_entanglement_step ⟨[(0, nodeA), (1, nodeA)], [(0, 1, edgeA)]⟩ [] rs k true from rfl]
  unfold run_entanglement_step
  rw [show stepEdges rs k (⟨[(0, nodeA), (1, nodeA)],
      [(0, 1, edgeA)]⟩ : Graph).edges = [(0, 1, stepEdge edgeA (rs k))] from rfl]
  rw [stepEdge_edgeA_lt (rs k) h]
  with_unfolding_all rfl

/-- One trial of the shortest-path strategy on the two-node graph: the
edge is generated, routed, and consumed; the destination node 1 is marked
entangled; a used-path record with one edge is appended. -/
lemma trial_sd_two (rs : ℕ → ℚ) (f k : ℕ) (t : ℚ) (h : rs k < 1) :
    trialLoop [0, 1] _SD_protocol true false rs (f + 1) twoNodeGraph [] t k =
      some (⟨[(0, nodeA), (1, nodeEnt)], [(0, 1, edgeA)]⟩,
        [⟨[], 1, some 0, some 1⟩], some (t + 1), k + 1) := by
  rw [trialLoop, step_two_nodes rs k h]
  with_unfolding_all rfl

/-- One trial of the cooperative strategy with both users on the two-node
graph: the edge is generated and both users land in one connected
component; the Steiner tree is that single edge. -/
lemma trial_cc_two (rs : ℕ → ℚ) (f k : ℕ) (t : ℚ) (h : rs k < 1) :
    trialLoop [0, 1] _CC_protocol false false rs (f + 1) twoNodeGraph [] t k =
      some (⟨[(0, nodeA), (1, nodeA)], [(0, 1, ⟨true, 0, 1, 1, 1⟩)]⟩,
        [⟨[], 1, none, none⟩], some (t + 1), k + 1) := by
  rw [trialLoop]
  rw [show run_entanglement_step twoNodeGraph [] rs k false =
      some (⟨[(0, nodeA), (1, nodeA)], [(0, 1, stepEdge edgeA (rs k))]⟩, []) from rfl]
  rw [stepEdge_edgeA_lt (rs k) h]
  with_unfolding_all rfl

lemma applySuccess_one_edge_sd (G : Graph) (links : ℚ) :
    applySuccess [⟨[], 1, some 0, some 1⟩] G links = some (G, links + 1) := rfl

lemma applySuccess_one_edge_cc (G : Graph) (links : ℚ) :
    applySuccess [⟨[], 1, none, none⟩] G links = some (G, links + 1) := rfl

/-- The repetition loop of the shortest-path run on the two-node graph:
every trial succeeds at time 1 and uses one link. -/
lemma runTrials_sd_two (rs : ℕ → ℚ) (h : ∀ n, rs n < 1) (T : ℤ) (hT : 0 < T) :
    ∀ (i : ℕ) (G : Graph) (k : ℕ) (gen : List ℚ) (links : ℚ),
      reset_graph_state G = twoNodeGraph →
      ∃ Gf, runTrials [0, 1] _SD_protocol true false rs T i G k gen links =
          some (Gf, gen ++ List.replicate i 1, links + (i : ℚ), k + i) ∧
        reset_graph_state Gf = twoNodeGraph := by
  intro i
  induction i with
  | zero =>
    intro G k gen links hres
    refine ⟨G, ?_, hres⟩
    rw [runTrials]
    simp
  | succ i ih =>
    intro G k gen links hres
    obtain ⟨f, hf⟩ : ∃ f, T.toNat = f + 1 := ⟨T.toNat - 1, by omega⟩
    rw [runTrials, hres, hf, trial_sd_two rs f k 0 (h k)]
    dsimp only
    rw [applySuccess_one_edge_sd]
    dsimp only
    rw [show ((0 : ℚ) + 1) = 1 from zero_add 1]
    obtain ⟨Gf, hrun, hGf⟩ :=
      ih ⟨[(0, nodeA), (1, nodeEnt)], [(0, 1, edgeA)]⟩ (k + 1)
        (gen ++ [1]) (links + 1) (by with_unfolding_all rfl)
    refine ⟨Gf, ?_, hGf⟩
    rw [hrun]
    simp only [List.replicate_succ, List.append_assoc, List.singleton_append,
      Nat.cast_add, Nat.cast_one]
    rw [show links + 1 + (i : ℚ) = links + ((i : ℚ) + 1) from by ring,
      show k + 1 + i = k + (i + 1) from by omega]

/-- The repetition loop of the cooperative run on the two-node graph:
every trial succeeds at time 1 and uses one link. -/
lemma runTrials_cc_two (rs : ℕ → ℚ) (h : ∀ n, rs n < 1) (T : ℤ) (hT : 0 < T) :
    ∀ (i : ℕ) (G : Graph) (k : ℕ) (gen : List ℚ) (links : ℚ),
      reset_graph_state G = twoNodeGraph →
      ∃ Gf, runTrials [0, 1] _CC_protocol false false rs T i G k gen links =
          some (Gf, gen ++ List.replicate i 1, links + (i : ℚ), k + i) ∧
        reset_graph_state Gf = twoNodeGraph := by
  intro i
  induction i with
  | zero =>
    intro G k gen links hres
    refine ⟨G, ?_, hres⟩
    rw [runTrials]
    simp
  | succ i ih =>
    intro G k gen links hres
    obtain ⟨f, hf⟩ : ∃ f, T.toNat = f + 1 := ⟨T.toNat - 1, by omega⟩
    rw [runTrials, hres, hf, trial_cc_two rs f k 0 (h k)]
    dsimp only
    rw [applySuccess_one_edge_cc]
    dsimp only
    rw [show ((0 : ℚ) + 1) = 1 from zero_add 1]
    obtain ⟨Gf, hrun, hGf⟩ :=
      ih ⟨[(0, nodeA), (1, nodeA)], [(0, 1, ⟨true, 0, 1, 1, 1⟩)]⟩ (k + 1)
        (gen ++ [1]) (links + 1) (by with_unfolding_all rfl)
    refine ⟨Gf, ?_, hGf⟩
    rw [hrun]
    simp only [List.replicate_succ, List.append_assoc, List.singleton_append,
      Nat.cast_add, Nat.cast_one]
    rw [show links + 1 + (i : ℚ) = links + ((i : ℚ) + 1) from by ring,
      show k + 1 + i = k + (i + 1) from by omega]

/-- The full shortest-path run of Scenario A (`timesteps = 5`,
`reps = 3`). -/
lemma run_sd_scenarioA (rs : ℕ → ℚ) (h : ∀ n, rs n < 1) :
    ∃ Gf, _run_protocol twoNodeGraph [0, 1] 5 3 _SD_protocol true false rs =
      .ok (Gf, 1, [1, 1, 1], 1) := by
  unfold _run_protocol
  rw [if_neg (by omega : ¬ (3 : ℤ) < 0)]
  obtain ⟨Gf, hrun, _⟩ := runTrials_sd_two rs h 5 (by omega) ((3 : ℤ).toNat)
    (reset_graph_usage twoNodeGraph) 0 [] 0 (by rfl)
  rw [List.nil_append] at hrun
  dsimp only
  rw [hrun]
  dsimp only
  rw [rate_replicate_ones ((3 : ℤ).toNat) (by omega) (((5 : ℤ) : ℤ) : ℚ)]
  dsimp only
  refine ⟨update_graph_usage Gf (((3 : ℤ) : ℤ) : ℚ), ?_⟩
  with_unfolding_all rfl

/-- The full cooperative run of Scenario A. -/
lemma run_cc_scenarioA (rs : ℕ → ℚ) (h : ∀ n, rs n < 1) :
    ∃ Gf, _run_protocol twoNodeGraph [0, 1] 5 3 _CC_protocol false false rs =
      .ok (Gf, 1, [1, 1, 1], 1) := by
  unfold _run_protocol
  rw [if_neg (by omega : ¬ (3 : ℤ) < 0)]
  obtain ⟨Gf, hrun, _⟩ := runTrials_cc_two rs h 5 (by omega) ((3 : ℤ).toNat)
    (reset_graph_usage twoNodeGraph) 0 [] 0 (by rfl)
  rw [List.nil_append] at hrun
  dsimp only
  rw [hrun]
  dsimp only
  rw [rate_replicate_ones ((3 : ℤ).toNat) (by omega) (((5 : ℤ) : ℤ) : ℚ)]
  dsimp only
  refine ⟨update_graph_usage Gf (((3 : ℤ) : ℤ) : ℚ), ?_⟩
  with_unfolding_all rfl

/-- Claim C5 (Scenario A): on two nodes joined by one edge with
`p_edge = 1` and `Qc = 1`, users `[0, 1]`, `timesteps = 5`, `reps = 3`,
each protocol (`SP_protocol`, `MPG_protocol`, `MPC_protocol`) returns
rate 1, per-trial success times `[1, 1, 1]` and `avg_links_used = 1`,
for every random stream drawing values in `[0, 1)`. -/
theorem C5_scenario_A (rs : ℕ → ℚ) (h : ∀ n, 0 ≤ rs n ∧ rs n < 1) :
    SP_protocol twoNodeGraph [0, 1] 5 3 false rs = .ok (1, [1, 1, 1], 1) ∧
      MPG_protocol twoNodeGraph [0, 1] 5 3 false rs = .ok (1, [1, 1, 1], 1) ∧
      MPC_protocol twoNodeGraph [0, 1] 5 3 false rs = .ok (1, [1, 1, 1], 1) := by
  have h1 : ∀ n, rs n < 1 := fun n => (h n).2
  obtain ⟨Gf1, hsd⟩ := run_sd_scenarioA rs h1
  obtain ⟨Gf2, hcc⟩ := run_cc_scenarioA rs h1
  refine ⟨?_, ?_, ?_⟩
  · unfold SP_protocol
    rw [show _get_star twoNodeGraph [0, 1] = some twoNodeGraph from by
      with_unfolding_all rfl]
    dsimp only
    rw [hsd]
    rfl
  · unfold MPG_protocol
    rw [hsd]
    rfl
  · unfold MPC_protocol
    rw [hcc]
    rfl

/-- Claim C5 witness: the all-zero random stream draws in `[0, 1)`, and
the three protocol results follow. -/
theorem C5_scenario_A_witness :
    SP_protocol twoNodeGraph [0, 1] 5 3 false rsZero = .ok (1, [1, 1, 1], 1) ∧
      MPG_protocol twoNodeGraph [0, 1] 5 3 false rsZero = .ok (1, [1, 1, 1], 1) ∧
      MPC_protocol twoNodeGraph [0, 1] 5 3 false rsZero = .ok (1, [1, 1, 1], 1) :=
  C5_scenario_A rsZero (fun _ => ⟨le_refl 0, by norm_num [rsZero]⟩)

end QuantNetSim
